import Mathlib

/-!
Shallow embedding of `src/FiniteStateMachine.ts` (theAlgorithmist/TS-Finite-State-Machine),
a reactive Mealy-style finite state machine, together with proofs about the
behaviour of its public operations.

Modelling conventions:
* JavaScript values that can flow through transition payloads and data
  documents are modelled by the inductive `DVal` (undefined, null, booleans,
  integers for numbers, strings, arrays, plain objects).
* ES6 `Set<string>` is an insertion-ordered duplicate-free `List String`;
  ES6 `Map<string, transFunction>` is an insertion-ordered association list.
* The RxJS `Subject` / `Subscription` machinery is modelled by the list of
  listener ids currently subscribed to the machine and a growing log
  `delivered` of `(listener, event)` pairs in delivery order: `Subject.next`
  synchronously appends one entry per currently subscribed listener.
* `new Function('data', 'state', body)` (dynamic compilation of transition
  text) is modelled by an explicit compilation environment
  `compile : String → TransFn` passed to `fromJson`.
* Reference-level aliasing of `JSON.parse(JSON.stringify(x))` is modelled
  separately by a small heap semantics (`JHeap`) further below.
-/

mutual

/-- JavaScript value universe used by the machine: `undefined`, `null`,
booleans, numbers (modelled as integers), strings, arrays, plain objects. -/
inductive DVal where
  | undef : DVal
  | nullv : DVal
  | boolv : Bool → DVal
  | numv : Int → DVal
  | str : String → DVal
  | arr : DList → DVal
  | obj : DFields → DVal

/-- Array of JavaScript values (cons list). -/
inductive DList where
  | nil : DList
  | cons : DVal → DList → DList

/-- Fields of a plain JavaScript object, in insertion order. -/
inductive DFields where
  | nil : DFields
  | fcons : String → DVal → DFields → DFields

end

/-- JavaScript truthiness: `undefined`, `null`, `false`, `0` and the empty
string are falsy; arrays and objects are always truthy. -/
def truthy : DVal → Bool
  | DVal.undef => false
  | DVal.nullv => false
  | DVal.boolv b => b
  | DVal.numv n => decide (n ≠ 0)
  | DVal.str s => decide (s ≠ "")
  | DVal.arr _ => true
  | DVal.obj _ => true

/-- Predicate for `Object.prototype.toString.call(v) == '[object Object]'`:
true exactly for plain objects (not arrays, not `null`, not primitives). -/
def isPlainObj : DVal → Bool
  | DVal.obj _ => true
  | _ => false

mutual

/-- Deep copy modelling `JSON.parse(JSON.stringify(v))` at the value level:
object fields whose value is `undefined` are dropped and `undefined` array
elements become `null`, as `JSON.stringify` does. -/
def jsonClone : DVal → DVal
  | DVal.undef => DVal.undef
  | DVal.nullv => DVal.nullv
  | DVal.boolv b => DVal.boolv b
  | DVal.numv n => DVal.numv n
  | DVal.str s => DVal.str s
  | DVal.arr xs => DVal.arr (jsonCloneList xs)
  | DVal.obj fs => DVal.obj (jsonCloneFields fs)

/-- Clone of an array: `undefined` elements serialize to `null`. -/
def jsonCloneList : DList → DList
  | DList.nil => DList.nil
  | DList.cons DVal.undef rest => DList.cons DVal.nullv (jsonCloneList rest)
  | DList.cons v rest => DList.cons (jsonClone v) (jsonCloneList rest)

/-- Clone of object fields: fields holding `undefined` are dropped. -/
def jsonCloneFields : DFields → DFields
  | DFields.nil => DFields.nil
  | DFields.fcons _ DVal.undef rest => jsonCloneFields rest
  | DFields.fcons f v rest => DFields.fcons f (jsonClone v) (jsonCloneFields rest)

end

mutual

/-- Value contains no `undefined` anywhere (every actual JSON document value
satisfies this). -/
def noUndef : DVal → Bool
  | DVal.undef => false
  | DVal.nullv => true
  | DVal.boolv _ => true
  | DVal.numv _ => true
  | DVal.str _ => true
  | DVal.arr xs => noUndefList xs
  | DVal.obj fs => noUndefFields fs

/-- Array version of `noUndef`. -/
def noUndefList : DList → Bool
  | DList.nil => true
  | DList.cons v rest => noUndef v && noUndefList rest

/-- Object-field version of `noUndef`. -/
def noUndefFields : DFields → Bool
  | DFields.nil => true
  | DFields.fcons _ v rest => noUndef v && noUndefFields rest

end

/-- Output of a transition rule (`IStateOutput`): target state and optional
data; an absent `data` is `DVal.undef`. -/
structure StateOutput where
  toState : String
  data : DVal

/-- The Mealy transition rule type (`transFunction` in the source). -/
def TransFn : Type := DVal → String → StateOutput

/-- Transition event published to subscribers (`IStateTransition`). -/
structure TransEvent where
  fromState : String
  toState : String
  data : DVal

/-- Descriptor of one state in a data document; each field may be absent
(`hasOwnProperty` is `isSome`).  Present fields carry the types asserted by
the source casts (`<string> state[...]` etc.). -/
structure StateDesc where
  name : Option String
  isAcceptance : Option Bool
  transition : Option String

/-- Offending fragment reported in the `node` field of a failed load. -/
inductive ErrNode where
  | desc : StateDesc → ErrNode
  | val : DVal → ErrNode

/-- Result record of `fromJson` (`IDecisionTreeAction`). -/
structure DTAction where
  success : Bool
  node : Option ErrNode
  action : String

namespace FSM

/-- Sentinel `FiniteStateMachine.NO_STATE`. -/
def NO_STATE : String := "[FSM] NO_STATE"

/-- Constant `FiniteStateMachine.NO_DATA`. -/
def NO_DATA : String := "[FSM] NO_DATA"

/-- Constant `FiniteStateMachine.VALID`. -/
def VALID : String := "[FSM] DATA_VALID"

/-- Constant `FiniteStateMachine.MISSING_PROPS`. -/
def MISSING_PROPS : String := "[FSM] MISSING_PROPS"

/-- Constant `FiniteStateMachine.INVALID_DATA`. -/
def INVALID_DATA : String := "[FSM] INVALID_DATA"

end FSM

/-- State of a `FiniteStateMachine` object.  `subject` is the list of listener
ids subscribed to the machine via its current RxJS subject; `delivered` is the
log of all events delivered so far, as `(listener, event)` pairs in delivery
order. -/
structure FSM where
  name : String
  curState : String
  states : List String
  transitions : List (String × TransFn)
  acceptanceStates : Option (List String)
  initialState : String
  initialData : Option DVal
  alphabet : Option (List String)
  subject : List Nat
  delivered : List (Nat × TransEvent)

/-- Ordered-set insertion for `Set.add` / object-key addition. -/
def setAdd (xs : List String) (x : String) : List String :=
  if x ∈ xs then xs else xs ++ [x]

/-- Association-list lookup for `Map.get`. -/
def lookupKey {α : Type} (xs : List (String × α)) (k : String) : Option α :=
  match xs with
  | [] => none
  | (k1, v) :: rest => if k1 = k then some v else lookupKey rest k

namespace FSM

/-- State of a machine right after `new FiniteStateMachine()`. -/
def empty : FSM :=
  { name := ""
    curState := NO_STATE
    states := []
    transitions := []
    acceptanceStates := none
    initialState := NO_STATE
    initialData := none
    alphabet := none
    subject := []
    delivered := [] }

/-- Getter `numStates`. -/
def numStates (m : FSM) : Nat := m.states.length

/-- Getter `numTransitions`. -/
def numTransitions (m : FSM) : Nat := m.transitions.length

/-- Getter `isAcceptance`: `_acceptanceStates ? hasOwnProperty(_curState) : false`. -/
def isAcceptanceGet (m : FSM) : Bool :=
  match m.acceptanceStates with
  | some ks => decide (m.curState ∈ ks)
  | none => false

/-- Getter `initialData`: `this._initialData ? JSON.parse(JSON.stringify(this._initialData)) : null`. -/
def initialDataGet (m : FSM) : Option DVal :=
  match m.initialData with
  | some v => some (jsonClone v)
  | none => none

/-- Getter `alphabet`: the source runs `this._alphabet.slice()` with no null
guard, so when `_alphabet` is `null` (fresh or cleared machine) it throws a
`TypeError`; that is the `Except.error` case. -/
def alphabetGet (m : FSM) : Except String (List String) :=
  match m.alphabet with
  | some xs => Except.ok xs
  | none => Except.error "TypeError: cannot read slice of null"

/-- Method `addState(stateName, acceptance)`. -/
def addState (m : FSM) (stateName : String) (acceptance : Bool := false) : FSM :=
  if stateName ≠ "" then
    let m1 := { m with states := setAdd m.states stateName }
    if acceptance then
      { m1 with acceptanceStates := some (setAdd (m1.acceptanceStates.getD []) stateName) }
    else m1
  else m

/-- Method `addTransition(from, to)`: boolean contract, no exception. -/
def addTransition (m : FSM) (frm : String) (toFn : TransFn) : FSM × Bool :=
  if frm ∈ m.states then
    if (lookupKey m.transitions frm).isSome then (m, false)
    else ({ m with transitions := m.transitions ++ [(frm, toFn)] }, true)
  else (m, false)

/-- Method `addSubscriber(observer)`: pushes a subscription of the given
listener onto the current subject. -/
def addSubscriber (m : FSM) (listener : Nat) : FSM :=
  { m with subject := m.subject ++ [listener] }

/-- Call `this._subject.next(ev)`: synchronously deliver `ev` to every
listener subscribed to the current subject, in subscription order. -/
def publish (m : FSM) (ev : TransEvent) : FSM :=
  { m with delivered := m.delivered ++ m.subject.map (fun l => (l, ev)) }

/-- First two lines of `next`: a supplied, non-empty `initialState` argument
overwrites `_curState` with no validation. -/
def applyOverride (m : FSM) (ov : Option String) : FSM :=
  match ov with
  | some s => if s ≠ "" then { m with curState := s } else m
  | none => m

/-- Method `next(input, initialState?)`. -/
def next (m : FSM) (input : DVal) (ov : Option String := none) : FSM × Option StateOutput :=
  let m0 := applyOverride m ov
  match lookupKey m0.transitions m0.curState with
  | none => (m0, none)
  | some f =>
      let ts := f input m0.curState
      let m1 := publish m0
        { fromState := m0.curState
          toState := ts.toState
          data := if truthy ts.data then ts.data else DVal.nullv }
      let m2 := { m1 with curState := ts.toState }
      (m2, some { toState := m2.curState, data := if truthy ts.data then ts.data else input })

/-- Method `clear()`: unsubscribes everything, replaces the subject by a fresh
one (so the machine ends with no subscribed listener), and resets every field
except `name` (the `delivered` log records past deliveries and is external to
the machine object). -/
def clear (m : FSM) : FSM :=
  { m with
    states := []
    transitions := []
    subject := []
    curState := NO_STATE
    acceptanceStates := none
    initialState := NO_STATE
    initialData := none
    alphabet := none }

end FSM

/-- Field of a data document that the source casts to an array after an
`'[object Array]'` check: either an actual array of the asserted element type,
or a value of some other shape. -/
inductive ArrField (α : Type) where
  | arrOf : List α → ArrField α
  | notArray : DVal → ArrField α

/-- Shape of a machine data document as consumed by `fromJson`.  An `Option`
field is `none` exactly when `hasOwnProperty` is false; present fields carry
the types asserted by the source casts. -/
structure FSMDoc where
  name : Option String
  alphabet : Option (ArrField String)
  states : Option (ArrField StateDesc)
  initialState : Option String
  initialData : Option DVal

/-- State-descriptor loop body of `fromJson`: registers each complete
descriptor via `addState` and `addTransition` (compiling its transition text),
stopping at the first descriptor missing a required field, which is returned
as the offending node. -/
def processStates (compile : String → TransFn) : FSM → List StateDesc → FSM × Option StateDesc
  | m, [] => (m, none)
  | m, d :: rest =>
    match d.name, d.isAcceptance, d.transition with
    | some nm, some acc, some body =>
        processStates compile ((FSM.addTransition (FSM.addState m nm acc) nm (compile body)).1) rest
    | _, _, _ => (m, some d)

namespace FSM

/-- Method `fromJson(data)`: linear validation pipeline of the source, with
`new Function` modelled by the explicit `compile` environment.  `data = none`
models an `undefined`/`null` argument. -/
def fromJson (compile : String → TransFn) (m : FSM) (data : Option FSMDoc) : FSM × DTAction :=
  match data with
  | none => (m, { success := false, node := none, action := NO_DATA })
  | some d =>
    match d.name, d.alphabet, d.states with
    | some nm, some alphF, some statesF =>
      match alphF with
      | ArrField.notArray _ => (m, { success := false, node := none, action := INVALID_DATA })
      | ArrField.arrOf alph =>
        let m1 := { m with alphabet := some alph }
        match statesF with
        | ArrField.notArray _ => (m1, { success := false, node := none, action := INVALID_DATA })
        | ArrField.arrOf descs =>
          if descs.isEmpty then
            (m1, { success := false, node := none, action := NO_STATE })
          else
            let m2 := { m1 with
              name := nm
              initialState := d.initialState.getD NO_STATE
              curState := d.initialState.getD NO_STATE }
            match processStates compile m2 descs with
            | (m3, some bad) =>
                (m3, { success := false, node := some (ErrNode.desc bad), action := INVALID_DATA })
            | (m3, none) =>
              match d.initialData with
              | none => (m3, { success := true, node := none, action := VALID })
              | some v =>
                if isPlainObj v then
                  ({ m3 with initialData := some (jsonClone v) },
                   { success := true, node := none, action := VALID })
                else
                  (m3, { success := false, node := some (ErrNode.val v), action := INVALID_DATA })
    | _, _, _ => (m, { success := false, node := none, action := MISSING_PROPS })

end FSM

/-- Public operations of the machine, for stating reachability and
trace-level properties. -/
inductive FSMOp where
  | opAddState : String → Bool → FSMOp
  | opAddTransition : String → TransFn → FSMOp
  | opAddSubscriber : Nat → FSMOp
  | opNext : DVal → Option String → FSMOp
  | opClear : FSMOp
  | opFromJson : (String → TransFn) → Option FSMDoc → FSMOp

/-- Effect of one public operation on the machine state. -/
def applyOp (m : FSM) : FSMOp → FSM
  | FSMOp.opAddState n a => FSM.addState m n a
  | FSMOp.opAddTransition f t => (FSM.addTransition m f t).1
  | FSMOp.opAddSubscriber l => FSM.addSubscriber m l
  | FSMOp.opNext i ov => (FSM.next m i ov).1
  | FSMOp.opClear => FSM.clear m
  | FSMOp.opFromJson c d => (FSM.fromJson c m d).1

/-- Run a sequence of public operations. -/
def runOps (m : FSM) : List FSMOp → FSM
  | [] => m
  | op :: rest => runOps (applyOp m op) rest

/-- Machine states reachable from a freshly constructed machine by public
operations. -/
inductive Reachable : FSM → Prop where
  | empty : Reachable FSM.empty
  | step : ∀ {m : FSM} (op : FSMOp), Reachable m → Reachable (applyOp m op)

/-- Well-formedness of the state/transition store: state names are unique
(ES6 `Set`), transition keys are unique (ES6 `Map`), and every transition key
is a known state. -/
def wfStore (m : FSM) : Prop :=
  m.states.Nodup ∧ (m.transitions.map Prod.fst).Nodup ∧
    ∀ k ∈ m.transitions.map Prod.fst, k ∈ m.states

/-- Invariant claimed by C1: the current state is the sentinel or a member of
the state set. -/
def curStateInv (m : FSM) : Prop :=
  m.curState = FSM.NO_STATE ∨ m.curState ∈ m.states

/-- Two-state demo machine used by the witnesses: states "q" and "c" (the
latter an acceptance state), one rule at "q" targeting "c" with an absent
payload, and a single subscriber with listener id 7. -/
def demoRule : TransFn := fun _ _ => StateOutput.mk "c" DVal.undef

/-- Demo machine built through the public operations. -/
def demoMachine : FSM :=
  FSM.addSubscriber
    (FSM.addTransition (FSM.addState (FSM.addState FSM.empty "q" false) "c" true)
      "q" demoRule).1 7

/-- Compilation environment for the concrete documents: every transition body
compiles to a rule that stays in "S1" with no payload. -/
def cCompile : String → TransFn := fun _ => fun _ _ => StateOutput.mk "S1" DVal.undef

/-- Concrete valid document carrying an `initialData` object `{x: 1}`. -/
def cDoc1 : FSMDoc :=
  { name := some "M1"
    alphabet := some (ArrField.arrOf ["a"])
    states := some (ArrField.arrOf [StateDesc.mk (some "S1") (some false) (some "b")])
    initialState := some "S1"
    initialData := some (DVal.obj (DFields.fcons "x" (DVal.numv 1) DFields.nil)) }

/-- The same valid document without the `initialData` property. -/
def cDoc2 : FSMDoc :=
  { name := some "M1"
    alphabet := some (ArrField.arrOf ["a"])
    states := some (ArrField.arrOf [StateDesc.mk (some "S1") (some false) (some "b")])
    initialState := some "S1"
    initialData := none }

/-- Machine obtained by loading `cDoc1` into a fresh machine; it holds initial
data `{x: 1}`. -/
def cMachine1 : FSM := (FSM.fromJson cCompile FSM.empty (some cDoc1)).1

/-- Document whose second state descriptor is missing its `isAcceptance` and
`transition` fields; the first descriptor is complete. -/
def cDoc3 : FSMDoc :=
  { name := some "M1"
    alphabet := some (ArrField.arrOf ["a"])
    states := some (ArrField.arrOf
      [StateDesc.mk (some "S1") (some false) (some "b"),
       StateDesc.mk (some "S2") none none])
    initialState := none
    initialData := none }

/-- Document missing all required top-level properties. -/
def cDocMissing : FSMDoc :=
  { name := none, alphabet := none, states := none, initialState := none, initialData := none }

/-! ### Reference-level heap model for the `initialData` deep copy -/

/-- Heap-level JavaScript value: primitives are immutable, objects (and
arrays, which are objects in JavaScript) live in the heap behind references. -/
inductive HVal where
  | hnull : HVal
  | hbool : Bool → HVal
  | hnum : Int → HVal
  | hstr : String → HVal
  | href : Nat → HVal

/-- Heap of JavaScript objects: an association from addresses to field lists,
plus the next fresh address. -/
structure JHeap where
  objs : List (Nat × List (String × HVal))
  nextA : Nat

/-- Association-list lookup with `Nat` keys (heap addresses). -/
def lookupNat {α : Type} (xs : List (Nat × α)) (k : Nat) : Option α :=
  match xs with
  | [] => none
  | (k1, v) :: rest => if k1 = k then some v else lookupNat rest k

/-- A heap value whose reference (if any) is below `n`. -/
def hvalBound : HVal → Nat → Bool
  | HVal.href a, n => decide (a < n)
  | _, _ => true

/-- All field values are bounded by `n`. -/
def fieldsBound (flds : List (String × HVal)) (n : Nat) : Bool :=
  flds.all (fun p => hvalBound p.2 n)

/-- Heap well-formedness: every stored address and every stored reference is
below the next fresh address. -/
def heapBound (h : JHeap) : Bool :=
  h.objs.all (fun e => decide (e.1 < h.nextA) && fieldsBound e.2 h.nextA)

mutual

/-- Fuel-indexed read-out of a heap value into a pure JSON tree; this is
`JSON.stringify` up to concrete syntax (cyclic structures exhaust the fuel). -/
def hread (h : JHeap) : Nat → HVal → Option DVal
  | _, HVal.hnull => some DVal.nullv
  | _, HVal.hbool b => some (DVal.boolv b)
  | _, HVal.hnum n => some (DVal.numv n)
  | _, HVal.hstr s => some (DVal.str s)
  | 0, HVal.href _ => none
  | Nat.succ fuel, HVal.href a =>
    match lookupNat h.objs a with
    | none => none
    | some flds => (hreadFields h fuel flds).map DVal.obj
termination_by fuel _ => (fuel, 0)

/-- Read-out of an object's fields. -/
def hreadFields (h : JHeap) : Nat → List (String × HVal) → Option DFields
  | _, [] => some DFields.nil
  | fuel, (f, v) :: rest =>
    match hread h fuel v, hreadFields h fuel rest with
    | some dv, some drest => some (DFields.fcons f dv drest)
    | _, _ => none
termination_by fuel flds => (fuel, flds.length + 1)

end

mutual

/-- Materialize a pure JSON tree in the heap with fresh addresses; this is
`JSON.parse`.  Arrays become heap objects with index-named fields. -/
def halloc : JHeap → DVal → JHeap × HVal
  | h, DVal.undef => (h, HVal.hnull)
  | h, DVal.nullv => (h, HVal.hnull)
  | h, DVal.boolv b => (h, HVal.hbool b)
  | h, DVal.numv n => (h, HVal.hnum n)
  | h, DVal.str s => (h, HVal.hstr s)
  | h, DVal.arr xs =>
    let p := hallocList h 0 xs
    ({ objs := p.1.objs ++ [(p.1.nextA, p.2)], nextA := p.1.nextA + 1 },
     HVal.href p.1.nextA)
  | h, DVal.obj fs =>
    let p := hallocFields h fs
    ({ objs := p.1.objs ++ [(p.1.nextA, p.2)], nextA := p.1.nextA + 1 },
     HVal.href p.1.nextA)

/-- Materialize array elements as index-named fields. -/
def hallocList : JHeap → Nat → DList → JHeap × List (String × HVal)
  | h, _, DList.nil => (h, [])
  | h, i, DList.cons v rest =>
    let p := halloc h v
    let q := hallocList p.1 (i + 1) rest
    (q.1, (Nat.repr i, p.2) :: q.2)

/-- Materialize object fields. -/
def hallocFields : JHeap → DFields → JHeap × List (String × HVal)
  | h, DFields.nil => (h, [])
  | h, DFields.fcons f v rest =>
    let p := halloc h v
    let q := hallocFields p.1 rest
    (q.1, (f, p.2) :: q.2)

end

/-- Update or add field `f` of a field list (JavaScript property write). -/
def setFieldInList (flds : List (String × HVal)) (f : String) (w : HVal) :
    List (String × HVal) :=
  if (lookupKey flds f).isSome then
    flds.map (fun p => if p.1 = f then (f, w) else p)
  else flds ++ [(f, w)]

/-- Mutation `o.f = w` through the reference `a`. -/
def setField (h : JHeap) (a : Nat) (f : String) (w : HVal) : JHeap :=
  { h with objs := h.objs.map (fun e => if e.1 = a then (e.1, setFieldInList e.2 f w) else e) }

/-- The `initialData` getter at the reference level:
`JSON.parse(JSON.stringify(v))`, i.e. read the machine-held value out to a
pure tree and materialize that tree at fresh addresses. -/
def hclone (h : JHeap) (fuel : Nat) (v : HVal) : Option (JHeap × HVal) :=
  (hread h fuel v).map (fun t => halloc h t)

/-! ### Basic lemmas about the store primitives -/

theorem mem_setAdd {xs : List String} {x a : String} :
    a ∈ setAdd xs x ↔ a ∈ xs ∨ a = x := by
  by_cases hx : x ∈ xs
  · simp only [setAdd, if_pos hx]
    constructor
    · exact Or.inl
    · rintro (h | rfl)
      · exact h
      · exact hx
  · simp [setAdd, if_neg hx]

theorem setAdd_nodup {xs : List String} {x : String} (h : xs.Nodup) :
    (setAdd xs x).Nodup := by
  by_cases hx : x ∈ xs
  · simpa [setAdd, hx] using h
  · simp [setAdd, hx, List.nodup_append, h]

theorem lookupKey_isSome_iff {α : Type} {xs : List (String × α)} {k : String} :
    (lookupKey xs k).isSome ↔ k ∈ xs.map Prod.fst := by
  induction xs with
  | nil => simp [lookupKey]
  | cons p rest ih =>
    obtain ⟨k1, v⟩ := p
    by_cases h : k1 = k
    · simp [lookupKey, h]
    · have h2 : ¬ k = k1 := fun hh => h hh.symm
      simp [lookupKey, h, h2, ih]

theorem lookupKey_append_last {α : Type} {xs : List (String × α)} {k : String} {v : α}
    (h : lookupKey xs k = none) : lookupKey (xs ++ [(k, v)]) k = some v := by
  induction xs with
  | nil => simp [lookupKey]
  | cons p rest ih =>
    obtain ⟨k1, w⟩ := p
    by_cases hk : k1 = k
    · simp [lookupKey, hk] at h
    · simp only [lookupKey, hk, if_neg hk, List.cons_append] at h ⊢
      exact ih h

/-! ### Store well-formedness -/

theorem wfStore_empty : wfStore FSM.empty := by
  simp [wfStore, FSM.empty]

theorem wfStore_addState {m : FSM} (h : wfStore m) (n : String) (a : Bool) :
    wfStore (FSM.addState m n a) := by
  obtain ⟨h1, h2, h3⟩ := h
  unfold FSM.addState
  split
  · split <;>
      exact ⟨setAdd_nodup h1, h2, fun k hk => mem_setAdd.2 (Or.inl (h3 k hk))⟩
  · exact ⟨h1, h2, h3⟩

theorem wfStore_addTransition {m : FSM} (h : wfStore m) (f : String) (t : TransFn) :
    wfStore (FSM.addTransition m f t).1 := by
  obtain ⟨h1, h2, h3⟩ := h
  unfold FSM.addTransition
  split
  case isTrue hf =>
    split
    case isTrue hs => exact ⟨h1, h2, h3⟩
    case isFalse hs =>
      have hmem : f ∉ m.transitions.map Prod.fst := by
        intro hmem
        exact hs (lookupKey_isSome_iff.2 hmem)
      refine ⟨h1, ?_, ?_⟩
      · simpa [List.nodup_append, h2] using hmem
      · intro k hk
        simp only [List.map_append, List.map_cons, List.map_nil, List.mem_append,
          List.mem_singleton] at hk
        rcases hk with hk | rfl
        · exact h3 k hk
        · exact hf
  case isFalse hf => exact ⟨h1, h2, h3⟩

theorem applyOverride_frame (m : FSM) (ov : Option String) :
    (FSM.applyOverride m ov).states = m.states ∧
    (FSM.applyOverride m ov).transitions = m.transitions ∧
    (FSM.applyOverride m ov).subject = m.subject ∧
    (FSM.applyOverride m ov).delivered = m.delivered ∧
    (FSM.applyOverride m ov).acceptanceStates = m.acceptanceStates ∧
    (FSM.applyOverride m ov).initialState = m.initialState ∧
    (FSM.applyOverride m ov).initialData = m.initialData ∧
    (FSM.applyOverride m ov).alphabet = m.alphabet ∧
    (FSM.applyOverride m ov).name = m.name := by
  cases ov with
  | none => simp [FSM.applyOverride]
  | some s =>
    by_cases hs : s ≠ "" <;> simp [FSM.applyOverride, hs]

theorem next_frame (m : FSM) (input : DVal) (ov : Option String) :
    (FSM.next m input ov).1.states = m.states ∧
    (FSM.next m input ov).1.transitions = m.transitions ∧
    (FSM.next m input ov).1.subject = m.subject ∧
    (FSM.next m input ov).1.acceptanceStates = m.acceptanceStates ∧
    (FSM.next m input ov).1.initialState = m.initialState ∧
    (FSM.next m input ov).1.initialData = m.initialData ∧
    (FSM.next m input ov).1.alphabet = m.alphabet ∧
    (FSM.next m input ov).1.name = m.name := by
  obtain ⟨h1, h2, h3, h4, h5, h6, h7, h8, h9⟩ := applyOverride_frame m ov
  simp only [FSM.next]
  split <;> simp_all [FSM.publish]

theorem wfStore_next {m : FSM} (h : wfStore m) (input : DVal) (ov : Option String) :
    wfStore (FSM.next m input ov).1 := by
  obtain ⟨hs, ht, _, _⟩ := next_frame m input ov
  unfold wfStore
  rw [hs, ht]
  exact h

theorem wfStore_clear (m : FSM) : wfStore (FSM.clear m) := by
  simp [wfStore, FSM.clear]

theorem wfStore_addSubscriber {m : FSM} (h : wfStore m) (l : Nat) :
    wfStore (FSM.addSubscriber m l) := by
  unfold wfStore FSM.addSubscriber
  exact h

theorem wfStore_processStates {compile : String → TransFn} :
    ∀ (descs : List StateDesc) (m m2 : FSM) (r : Option StateDesc),
      processStates compile m descs = (m2, r) → wfStore m → wfStore m2 := by
  intro descs
  induction descs with
  | nil =>
    intro m m2 r heq h
    simp only [processStates] at heq
    cases heq
    exact h
  | cons d rest ih =>
    intro m m2 r heq h
    obtain ⟨dn, da, dt⟩ := d
    cases dn <;> cases da <;> cases dt <;> simp only [processStates] at heq
    case some.some.some nm acc body =>
      exact ih _ _ _ heq (wfStore_addTransition (wfStore_addState h _ _) _ _)
    all_goals (cases heq; exact h)

theorem wfStore_fromJson {m : FSM} (h : wfStore m) (compile : String → TransFn)
    (d : Option FSMDoc) : wfStore (FSM.fromJson compile m d).1 := by
  cases d with
  | none => exact h
  | some doc =>
    rcases doc with ⟨dn, dalph, dst, dis, did⟩
    unfold FSM.fromJson
    cases dn <;> cases dalph <;> cases dst <;> try exact h
    case some.some.some nm alphF statesF =>
      cases alphF with
      | notArray v => exact h
      | arrOf alph =>
        cases statesF with
        | notArray v => exact h
        | arrOf descs =>
          dsimp only
          split
          · exact h
          · split
            case h_1 m3 bad heq => exact wfStore_processStates descs _ _ _ heq h
            case h_2 m3 heq =>
              cases did with
              | none => exact wfStore_processStates descs _ _ _ heq h
              | some v =>
                dsimp only
                by_cases hv : isPlainObj v = true
                · rw [if_pos hv]
                  exact wfStore_processStates descs _ m3 none heq h
                · rw [if_neg hv]
                  exact wfStore_processStates descs _ _ _ heq h

theorem reachable_wfStore {m : FSM} (h : Reachable m) : wfStore m := by
  induction h with
  | empty => exact wfStore_empty
  | step op hr ih =>
    cases op with
    | opAddState n a => exact wfStore_addState ih n a
    | opAddTransition f t => exact wfStore_addTransition ih f t
    | opAddSubscriber l => exact wfStore_addSubscriber ih l
    | opNext i ov => exact wfStore_next ih i ov
    | opClear => exact wfStore_clear _
    | opFromJson c d => exact wfStore_fromJson ih c d

theorem wfStore_card {m : FSM} (h : wfStore m) : m.numTransitions ≤ m.numStates := by
  obtain ⟨h1, h2, h3⟩ := h
  have hsub : (m.transitions.map Prod.fst) ⊆ m.states := fun k hk => h3 k hk
  have := (List.subperm_of_subset h2 hsub).length_le
  simpa [FSM.numTransitions, FSM.numStates] using this

/-! ### Frame lemmas for the notification channel and loader -/

theorem addState_frame (m : FSM) (n : String) (a : Bool) :
    (FSM.addState m n a).curState = m.curState ∧
    (FSM.addState m n a).subject = m.subject ∧
    (FSM.addState m n a).delivered = m.delivered ∧
    (FSM.addState m n a).name = m.name ∧
    (FSM.addState m n a).initialState = m.initialState ∧
    (FSM.addState m n a).initialData = m.initialData ∧
    (FSM.addState m n a).alphabet = m.alphabet ∧
    (FSM.addState m n a).transitions = m.transitions := by
  unfold FSM.addState
  split <;> [skip; simp]
  split <;> simp

theorem addState_mem_states (m : FSM) (n : String) (a : Bool) {k : String}
    (h : k ∈ m.states) : k ∈ (FSM.addState m n a).states := by
  unfold FSM.addState
  split <;> [skip; exact h]
  split <;> exact mem_setAdd.2 (Or.inl h)

theorem addTransition_frame (m : FSM) (f : String) (t : TransFn) :
    (FSM.addTransition m f t).1.curState = m.curState ∧
    (FSM.addTransition m f t).1.subject = m.subject ∧
    (FSM.addTransition m f t).1.delivered = m.delivered ∧
    (FSM.addTransition m f t).1.name = m.name ∧
    (FSM.addTransition m f t).1.initialState = m.initialState ∧
    (FSM.addTransition m f t).1.initialData = m.initialData ∧
    (FSM.addTransition m f t).1.alphabet = m.alphabet ∧
    (FSM.addTransition m f t).1.states = m.states := by
  unfold FSM.addTransition
  split <;> [skip; simp]
  split <;> simp

theorem processStates_frame {compile : String → TransFn} :
    ∀ (descs : List StateDesc) (m : FSM),
      (processStates compile m descs).1.curState = m.curState ∧
      (processStates compile m descs).1.subject = m.subject ∧
      (processStates compile m descs).1.delivered = m.delivered ∧
      (processStates compile m descs).1.name = m.name ∧
      (processStates compile m descs).1.initialState = m.initialState ∧
      (processStates compile m descs).1.initialData = m.initialData ∧
      (processStates compile m descs).1.alphabet = m.alphabet := by
  intro descs
  induction descs with
  | nil => intro m; simp [processStates]
  | cons d rest ih =>
    intro m
    obtain ⟨dn, da, dt⟩ := d
    cases dn <;> cases da <;> cases dt <;> simp only [processStates] <;>
      try exact ⟨trivial, trivial, trivial, trivial, trivial, trivial, trivial⟩
    case some.some.some nm acc body =>
      have h1 := addState_frame m nm acc
      have h2 := addTransition_frame (FSM.addState m nm acc) nm (compile body)
      have h3 := ih ((FSM.addTransition (FSM.addState m nm acc) nm (compile body)).1)
      simp_all

theorem processStates_frame_eq {compile : String → TransFn} {descs : List StateDesc}
    {m m2 : FSM} {r : Option StateDesc} (heq : processStates compile m descs = (m2, r)) :
    m2.curState = m.curState ∧ m2.subject = m.subject ∧ m2.delivered = m.delivered ∧
    m2.name = m.name ∧ m2.initialState = m.initialState ∧ m2.initialData = m.initialData ∧
    m2.alphabet = m.alphabet := by
  have hf := @processStates_frame compile descs m
  rw [heq] at hf
  exact hf

theorem fromJson_channel_frame (compile : String → TransFn) (m : FSM) (d : Option FSMDoc) :
    (FSM.fromJson compile m d).1.subject = m.subject ∧
    (FSM.fromJson compile m d).1.delivered = m.delivered := by
  cases d with
  | none => exact ⟨rfl, rfl⟩
  | some doc =>
    rcases doc with ⟨dn, dalph, dst, dis, did⟩
    unfold FSM.fromJson
    cases dn <;> cases dalph <;> cases dst <;> try exact ⟨rfl, rfl⟩
    case some.some.some nm alphF statesF =>
      cases alphF with
      | notArray v => exact ⟨rfl, rfl⟩
      | arrOf alph =>
        cases statesF with
        | notArray v => exact ⟨rfl, rfl⟩
        | arrOf descs =>
          dsimp only
          split
          · exact ⟨rfl, rfl⟩
          · split
            case h_1 m3 bad heq =>
              obtain ⟨_, hs, hd, _⟩ := processStates_frame_eq heq
              exact ⟨hs, hd⟩
            case h_2 m3 heq =>
              obtain ⟨_, hs, hd, _⟩ := processStates_frame_eq heq
              cases did with
              | none => exact ⟨hs, hd⟩
              | some v =>
                dsimp only
                by_cases hv : isPlainObj v = true
                · rw [if_pos hv]
                  exact ⟨hs, hd⟩
                · rw [if_neg hv]
                  exact ⟨hs, hd⟩

theorem filter_map_pair_nil {l : Nat} {xs : List Nat} (h : l ∉ xs) (ev : TransEvent) :
    (xs.map (fun x => (x, ev))).filter (fun p => decide (p.1 = l)) = [] := by
  induction xs with
  | nil => rfl
  | cons x rest ih =>
    have hxl : ¬ (x = l) := fun hh => h (by rw [hh]; exact List.mem_cons_self _ _)
    have hr : l ∉ rest := fun hh => h (List.mem_cons_of_mem _ hh)
    simp [List.filter_cons, hxl, ih hr]

theorem next_delivered_filter {m : FSM} {l : Nat} (hsub : l ∉ m.subject)
    (i : DVal) (ov : Option String) :
    (FSM.next m i ov).1.delivered.filter (fun p => decide (p.1 = l)) =
      m.delivered.filter (fun p => decide (p.1 = l)) := by
  obtain ⟨h1, h2, h3, h4, h5, h6, h7, h8, h9⟩ := applyOverride_frame m ov
  have hsub0 : l ∉ (FSM.applyOverride m ov).subject := by rw [h3]; exact hsub
  simp only [FSM.next]
  split
  · dsimp only
    rw [h4]
  · dsimp only [FSM.publish]
    rw [List.filter_append, h4, filter_map_pair_nil hsub0 _, List.append_nil]

theorem no_delivery_without_subscribe {l : Nat} :
    ∀ (ops : List FSMOp) (m : FSM), l ∉ m.subject →
      FSMOp.opAddSubscriber l ∉ ops →
      (runOps m ops).delivered.filter (fun p => decide (p.1 = l)) =
        m.delivered.filter (fun p => decide (p.1 = l)) ∧
      l ∉ (runOps m ops).subject := by
  intro ops
  induction ops with
  | nil => intro m h _; exact ⟨rfl, h⟩
  | cons op rest ih =>
    intro m hsub hops
    have hop : FSMOp.opAddSubscriber l ∉ rest := by
      intro hmem; exact hops (List.mem_cons_of_mem _ hmem)
    cases op with
    | opAddState n a =>
      obtain ⟨_, hs, hd, _⟩ := addState_frame m n a
      have hrec := ih (FSM.addState m n a) (by rw [hs]; exact hsub) hop
      refine ⟨?_, hrec.2⟩
      show (runOps (FSM.addState m n a) rest).delivered.filter (fun p => decide (p.1 = l)) =
        m.delivered.filter (fun p => decide (p.1 = l))
      rw [hrec.1, hd]
    | opAddTransition f t =>
      obtain ⟨_, hs, hd, _⟩ := addTransition_frame m f t
      have hrec := ih (FSM.addTransition m f t).1 (by rw [hs]; exact hsub) hop
      refine ⟨?_, hrec.2⟩
      show (runOps (FSM.addTransition m f t).1 rest).delivered.filter
          (fun p => decide (p.1 = l)) =
        m.delivered.filter (fun p => decide (p.1 = l))
      rw [hrec.1, hd]
    | opAddSubscriber l2 =>
      have hne : l2 ≠ l := by
        intro hh
        exact hops (by rw [hh]; exact List.mem_cons_self _ _)
      have hsub2 : l ∉ (FSM.addSubscriber m l2).subject := by
        simp only [FSM.addSubscriber, List.mem_append, List.mem_singleton]
        rintro (h | h)
        · exact hsub h
        · exact hne h.symm
      have hrec := ih (FSM.addSubscriber m l2) hsub2 hop
      refine ⟨?_, hrec.2⟩
      show (runOps (FSM.addSubscriber m l2) rest).delivered.filter
          (fun p => decide (p.1 = l)) =
        m.delivered.filter (fun p => decide (p.1 = l))
      rw [hrec.1]
      rfl
    | opNext i ov =>
      obtain ⟨_, _, hs, _⟩ := next_frame m i ov
      have hrec := ih (FSM.next m i ov).1 (by rw [hs]; exact hsub) hop
      refine ⟨?_, hrec.2⟩
      show (runOps (FSM.next m i ov).1 rest).delivered.filter (fun p => decide (p.1 = l)) =
        m.delivered.filter (fun p => decide (p.1 = l))
      rw [hrec.1, next_delivered_filter hsub i ov]
    | opClear =>
      have hsub2 : l ∉ (FSM.clear m).subject := by
        simp [FSM.clear]
      have hrec := ih (FSM.clear m) hsub2 hop
      refine ⟨?_, hrec.2⟩
      show (runOps (FSM.clear m) rest).delivered.filter (fun p => decide (p.1 = l)) =
        m.delivered.filter (fun p => decide (p.1 = l))
      rw [hrec.1]
      rfl
    | opFromJson c d =>
      obtain ⟨hs, hd⟩ := fromJson_channel_frame c m d
      have hrec := ih (FSM.fromJson c m d).1 (by rw [hs]; exact hsub) hop
      refine ⟨?_, hrec.2⟩
      show (runOps (FSM.fromJson c m d).1 rest).delivered.filter (fun p => decide (p.1 = l)) =
        m.delivered.filter (fun p => decide (p.1 = l))
      rw [hrec.1, hd]

/-! ### JSON clone on undefined-free values -/

mutual

theorem jsonClone_noUndef : ∀ (v : DVal), noUndef v = true → jsonClone v = v
  | DVal.undef, h => by simp [noUndef] at h
  | DVal.nullv, _ => rfl
  | DVal.boolv b, _ => rfl
  | DVal.numv n, _ => rfl
  | DVal.str s, _ => rfl
  | DVal.arr xs, h => by
      rw [jsonClone, jsonCloneList_noUndef xs (by simpa [noUndef] using h)]
  | DVal.obj fs, h => by
      rw [jsonClone, jsonCloneFields_noUndef fs (by simpa [noUndef] using h)]

theorem jsonCloneList_noUndef : ∀ (xs : DList), noUndefList xs = true → jsonCloneList xs = xs
  | DList.nil, _ => rfl
  | DList.cons v rest, h => by
      have h1 : noUndef v = true := by
        have hh := h
        simp only [noUndefList, Bool.and_eq_true] at hh
        exact hh.1
      have h2 : noUndefList rest = true := by
        have hh := h
        simp only [noUndefList, Bool.and_eq_true] at hh
        exact hh.2
      cases v
      case undef => simp [noUndef] at h1
      all_goals
        simp [jsonCloneList, jsonClone_noUndef _ h1, jsonCloneList_noUndef rest h2]

theorem jsonCloneFields_noUndef :
    ∀ (fs : DFields), noUndefFields fs = true → jsonCloneFields fs = fs
  | DFields.nil, _ => rfl
  | DFields.fcons f v rest, h => by
      have h1 : noUndef v = true := by
        have hh := h
        simp only [noUndefFields, Bool.and_eq_true] at hh
        exact hh.1
      have h2 : noUndefFields rest = true := by
        have hh := h
        simp only [noUndefFields, Bool.and_eq_true] at hh
        exact hh.2
      cases v
      case undef => simp [noUndef] at h1
      all_goals
        simp [jsonCloneFields, jsonClone_noUndef _ h1, jsonCloneFields_noUndef rest h2]

end

/-! ### Claims about `addTransition`, the getters and `next` -/

/-- C5: `addTransition(from, rule)` returns false exactly when `from` is not a
known state or `from` already has a registered rule; in either failure case
the machine — in particular the transition map — is unchanged and no exception
is thrown; otherwise the rule is registered (appended in insertion order) and
true is returned; after a successful registration any further registration for
the same state fails; and on every machine reachable by public operations
`numTransitions` never exceeds `numStates`. -/
theorem addTransition_contract :
    (∀ (m : FSM) (f : String) (t : TransFn),
        (FSM.addTransition m f t).2 = false ↔
          f ∉ m.states ∨ f ∈ m.transitions.map Prod.fst) ∧
    (∀ (m : FSM) (f : String) (t : TransFn),
        (FSM.addTransition m f t).2 = false → (FSM.addTransition m f t).1 = m) ∧
    (∀ (m : FSM) (f : String) (t : TransFn),
        (FSM.addTransition m f t).2 = true →
          (FSM.addTransition m f t).1.transitions = m.transitions ++ [(f, t)]) ∧
    (∀ (m : FSM) (f : String) (t t2 : TransFn),
        (FSM.addTransition m f t).2 = true →
          (FSM.addTransition (FSM.addTransition m f t).1 f t2).2 = false) ∧
    (∀ m : FSM, Reachable m → m.numTransitions ≤ m.numStates) := by
  refine ⟨?_, ?_, ?_, ?_, fun m h => wfStore_card (reachable_wfStore h)⟩
  · intro m f t
    unfold FSM.addTransition
    by_cases hf : f ∈ m.states
    · by_cases hl : (lookupKey m.transitions f).isSome
      · simp [hf, hl, lookupKey_isSome_iff.1 hl]
      · have hmem : f ∉ m.transitions.map Prod.fst :=
          fun hm => hl (lookupKey_isSome_iff.2 hm)
        simp [hf, hl, hmem]
    · simp [hf]
  · intro m f t h
    unfold FSM.addTransition at h ⊢
    by_cases hf : f ∈ m.states
    · by_cases hl : (lookupKey m.transitions f).isSome
      · simp [hf, hl]
      · simp [hf, hl] at h
    · simp [hf]
  · intro m f t h
    unfold FSM.addTransition at h ⊢
    by_cases hf : f ∈ m.states
    · by_cases hl : (lookupKey m.transitions f).isSome
      · simp [hf, hl] at h
      · simp [hf, hl]
    · simp [hf] at h
  · intro m f t t2 h
    unfold FSM.addTransition at h ⊢
    by_cases hf : f ∈ m.states
    · by_cases hl : (lookupKey m.transitions f).isSome
      · simp [hf, hl] at h
      · have hnone : lookupKey m.transitions f = none := by
          cases hcase : lookupKey m.transitions f with
          | none => rfl
          | some _ => rw [hcase] at hl; simp at hl
        have happ : lookupKey (m.transitions ++ [(f, t)]) f = some t :=
          lookupKey_append_last hnone
        simp [hf, hl, happ]
    · simp [hf] at h

/-- Witness for the `addTransition` contract: on a one-state machine the first
registration for "A" succeeds, the second fails, and the reachable transition
count is bounded by the state count. -/
theorem addTransition_contract_witness :
    (FSM.addTransition (FSM.addTransition (FSM.addState FSM.empty "A" false) "A"
        (fun _ _ => StateOutput.mk "A" DVal.undef)).1 "A"
        (fun _ _ => StateOutput.mk "A" DVal.undef)).2 = false ∧
    (FSM.addState FSM.empty "A" false).numTransitions ≤
      (FSM.addState FSM.empty "A" false).numStates :=
  ⟨addTransition_contract.2.2.2.1 (FSM.addState FSM.empty "A" false) "A" _ _ (by rfl),
   addTransition_contract.2.2.2.2 (FSM.addState FSM.empty "A" false)
     (Reachable.step (FSMOp.opAddState "A" false) Reachable.empty)⟩

/-- C8 (code bug): the `alphabet` getter runs `this._alphabet.slice()` with no
null guard, so on a machine never populated from a data document — the fresh
machine, or any machine after `clear` — reading `alphabet` throws a
`TypeError` instead of returning the absent value promised by the getter's
declared `Array<string> | null` type and by the spec. -/
theorem alphabet_getter_throws :
    FSM.alphabetGet FSM.empty = Except.error "TypeError: cannot read slice of null" ∧
    ∀ m : FSM, FSM.alphabetGet (FSM.clear m) =
      Except.error "TypeError: cannot read slice of null" :=
  ⟨rfl, fun _ => rfl⟩

/-- C1 is refuted: a single `next` call with an unvalidated `overrideState`
argument on the fresh machine leaves `currentState` equal to "bogus", which is
neither the sentinel nor a member of the (empty) state set. -/
theorem currentState_invariant_cex :
    ¬ curStateInv (FSM.next FSM.empty (DVal.numv 0) (some "bogus")).1 := by
  intro h
  rcases h with h | h
  · revert h
    decide
  · revert h
    decide

/-- C1 (amended): the "sentinel or known state" invariant holds on the fresh
machine, is preserved by `addState`, `addTransition` and `addSubscriber`, and
is re-established by `clear`; it is not preserved in general by `next` (whose
override and rule target are unvalidated) or by `fromJson` (whose document
`initialState` is unvalidated), as the counterexample shows. -/
theorem currentState_invariant_amended :
    curStateInv FSM.empty ∧
    (∀ (m : FSM) (n : String) (a : Bool),
        curStateInv m → curStateInv (FSM.addState m n a)) ∧
    (∀ (m : FSM) (f : String) (t : TransFn),
        curStateInv m → curStateInv (FSM.addTransition m f t).1) ∧
    (∀ (m : FSM) (l : Nat), curStateInv m → curStateInv (FSM.addSubscriber m l)) ∧
    (∀ m : FSM, curStateInv (FSM.clear m)) := by
  refine ⟨Or.inl rfl, ?_, ?_, ?_, fun m => Or.inl rfl⟩
  · intro m n a h
    obtain ⟨hc, _⟩ := addState_frame m n a
    rcases h with h | h
    · exact Or.inl (by rw [hc]; exact h)
    · exact Or.inr (by rw [hc]; exact addState_mem_states m n a h)
  · intro m f t h
    obtain ⟨hc, _, _, _, _, _, _, hst⟩ := addTransition_frame m f t
    rcases h with h | h
    · exact Or.inl (by rw [hc]; exact h)
    · exact Or.inr (by rw [hc, hst]; exact h)
  · intro m l h
    exact h

/-- Witness for the amended C1 invariant at a concrete machine. -/
theorem currentState_invariant_amended_witness :
    curStateInv (FSM.addState FSM.empty "A" false) :=
  currentState_invariant_amended.2.1 FSM.empty "A" false
    currentState_invariant_amended.1

/-- C4 is refuted in its "currentState is unchanged" part: on the fresh
(empty) machine, `next` with override "x" finds no rule and duly returns the
absent result with nothing published, yet `currentState` has changed (to the
unvalidated override "x"). -/
theorem next_no_rule_cex :
    (FSM.next FSM.empty (DVal.numv 0) (some "x")).2 = none ∧
    (FSM.next FSM.empty (DVal.numv 0) (some "x")).1.delivered = FSM.empty.delivered ∧
    (FSM.next FSM.empty (DVal.numv 0) (some "x")).1.curState ≠ FSM.empty.curState := by
  refine ⟨rfl, rfl, ?_⟩
  decide

/-- C4 (amended): whenever the post-override current state has no registered
rule — including the sentinel state and the freshly constructed machine —
`next` returns the absent result rather than an error, publishes no event, and
leaves the machine unchanged apart from the override application; with no
override supplied the machine is fully unchanged. -/
theorem next_no_rule_amended :
    (∀ (m : FSM) (input : DVal) (ov : Option String),
        lookupKey (FSM.applyOverride m ov).transitions
            (FSM.applyOverride m ov).curState = none →
        FSM.next m input ov = (FSM.applyOverride m ov, none)) ∧
    (∀ (m : FSM) (input : DVal),
        lookupKey m.transitions m.curState = none →
        FSM.next m input none = (m, none)) ∧
    (∀ (m : FSM) (input : DVal) (ov : Option String),
        (FSM.next m input ov).2 = none →
        (FSM.next m input ov).1.delivered = m.delivered) ∧
    (∀ (input : DVal) (ov : Option String), (FSM.next FSM.empty input ov).2 = none) := by
  refine ⟨?_, ?_, ?_, ?_⟩
  · intro m input ov h
    simp only [FSM.next, h]
  · intro m input h
    simp only [FSM.next, FSM.applyOverride]
    simp only [h]
  · intro m input ov h
    obtain ⟨_, _, _, hd, _⟩ := applyOverride_frame m ov
    simp only [FSM.next] at h ⊢
    cases hl : lookupKey (FSM.applyOverride m ov).transitions
        (FSM.applyOverride m ov).curState with
    | none => simp only [hl]; exact hd
    | some f => rw [hl] at h; simp at h
  · intro input ov
    have ht : (FSM.applyOverride FSM.empty ov).transitions = [] :=
      (applyOverride_frame FSM.empty ov).2.1
    simp only [FSM.next, ht, lookupKey]

/-- Witness for the amended C4 at a concrete machine and override. -/
theorem next_no_rule_amended_witness :
    FSM.next FSM.empty (DVal.numv 0) (some "x") =
      (FSM.applyOverride FSM.empty (some "x"), none) :=
  next_no_rule_amended.1 FSM.empty (DVal.numv 0) (some "x") rfl

/-! ### Claims about publication and payload defaulting in `next` -/

/-- C2: when `next` finds a registered rule for the (post-override) current
state, it synchronously appends exactly one transition event per currently
subscribed listener, in subscription order, to the delivery log before
returning; the event's `from` field equals the pre-transition current state
(the state being left, still unmutated when the event is built and published),
and only afterwards is `currentState` mutated to the rule's target. -/
theorem next_publishes_to_every_subscriber :
    ∀ (m : FSM) (input : DVal) (ov : Option String) (f : TransFn),
      lookupKey (FSM.applyOverride m ov).transitions
          (FSM.applyOverride m ov).curState = some f →
      (FSM.next m input ov).1.delivered =
        m.delivered ++ m.subject.map (fun l =>
          (l, TransEvent.mk (FSM.applyOverride m ov).curState
            (f input (FSM.applyOverride m ov).curState).toState
            (if truthy (f input (FSM.applyOverride m ov).curState).data = true
             then (f input (FSM.applyOverride m ov).curState).data
             else DVal.nullv))) ∧
      (FSM.next m input ov).1.curState =
        (f input (FSM.applyOverride m ov).curState).toState := by
  intro m input ov f h
  obtain ⟨h1, h2, h3, h4, h5, h6, h7, h8, h9⟩ := applyOverride_frame m ov
  simp only [FSM.next, h, FSM.publish]
  constructor
  · rw [h4, h3]
  · trivial

/-- Witness for C2 on the demo machine: the single registered listener
observes exactly one "q" to "c" event. -/
theorem next_publishes_to_every_subscriber_witness :
    (FSM.next demoMachine (DVal.str "s") (some "q")).1.delivered =
      demoMachine.delivered ++ demoMachine.subject.map (fun l =>
        (l, TransEvent.mk (FSM.applyOverride demoMachine (some "q")).curState
          (demoRule (DVal.str "s")
            (FSM.applyOverride demoMachine (some "q")).curState).toState
          (if truthy (demoRule (DVal.str "s")
              (FSM.applyOverride demoMachine (some "q")).curState).data = true
           then (demoRule (DVal.str "s")
             (FSM.applyOverride demoMachine (some "q")).curState).data
           else DVal.nullv))) ∧
    (FSM.next demoMachine (DVal.str "s") (some "q")).1.curState =
      (demoRule (DVal.str "s") (FSM.applyOverride demoMachine (some "q")).curState).toState :=
  next_publishes_to_every_subscriber demoMachine (DVal.str "s") (some "q") demoRule (by rfl)

/-- C3: when the rule for the current state fires, the caller-visible result
and the published events use two different defaulting rules for the payload: a
falsy payload is reported as `null` (absent) in every delivered event while
the value returned to the caller echoes the original input; a truthy payload
is carried by both; and the returned `to` field always equals the new
`currentState`. -/
theorem next_payload_defaulting :
    ∀ (m : FSM) (input : DVal) (ov : Option String) (f : TransFn),
      lookupKey (FSM.applyOverride m ov).transitions
          (FSM.applyOverride m ov).curState = some f →
      (FSM.next m input ov).2 =
        some (StateOutput.mk (f input (FSM.applyOverride m ov).curState).toState
          (if truthy (f input (FSM.applyOverride m ov).curState).data = true
           then (f input (FSM.applyOverride m ov).curState).data else input)) ∧
      (∀ p ∈ (FSM.next m input ov).1.delivered.drop m.delivered.length,
          p.2.data =
            (if truthy (f input (FSM.applyOverride m ov).curState).data = true
             then (f input (FSM.applyOverride m ov).curState).data else DVal.nullv)) ∧
      (FSM.next m input ov).2.map StateOutput.toState =
        some (FSM.next m input ov).1.curState := by
  intro m input ov f h
  obtain ⟨h1, h2, h3, h4, h5, h6, h7, h8, h9⟩ := applyOverride_frame m ov
  refine ⟨?_, ?_, ?_⟩
  · simp only [FSM.next, h]
  · intro p hp
    simp only [FSM.next, h, FSM.publish] at hp
    rw [h4, h3, List.drop_left] at hp
    obtain ⟨x, hx, rfl⟩ := List.mem_map.1 hp
    rfl
  · simp only [FSM.next, h]
    rfl

/-- Witness for C3 on the demo machine: the rule's payload is absent (falsy),
so the caller gets back the original input while the published event carries
null. -/
theorem next_payload_defaulting_witness :
    (FSM.next demoMachine (DVal.str "s") (some "q")).2 =
      some (StateOutput.mk "c" (DVal.str "s")) ∧
    ∀ p ∈ (FSM.next demoMachine (DVal.str "s") (some "q")).1.delivered.drop
        demoMachine.delivered.length,
      p.2.data = DVal.nullv := by
  have h := next_payload_defaulting demoMachine (DVal.str "s") (some "q") demoRule (by rfl)
  constructor
  · rw [h.1]
    rfl
  · intro p hp
    rw [h.2.1 p hp]
    rfl

/-! ### Claims about `clear` -/

/-- C9: `clear` zeroes the state and transition counts, makes `isAcceptance`
false, resets the alphabet, initial-data and initial-state fields, sets
`currentState` to the sentinel, leaves `name` untouched, and empties the
subscriber list (the stale subject is replaced by a fresh one); consequently a
listener subscribed before the `clear` receives no further events from any
subsequent operations that do not re-subscribe it — in particular from any
sequence of `next` calls. -/
theorem clear_contract :
    (∀ m : FSM,
        (FSM.clear m).numStates = 0 ∧
        (FSM.clear m).numTransitions = 0 ∧
        FSM.isAcceptanceGet (FSM.clear m) = false ∧
        (FSM.clear m).alphabet = none ∧
        FSM.initialDataGet (FSM.clear m) = none ∧
        (FSM.clear m).curState = FSM.NO_STATE ∧
        (FSM.clear m).initialState = FSM.NO_STATE ∧
        (FSM.clear m).name = m.name ∧
        (FSM.clear m).subject = []) ∧
    (∀ (m : FSM) (l : Nat) (ops : List FSMOp),
        FSMOp.opAddSubscriber l ∉ ops →
        (runOps (FSM.clear m) ops).delivered.filter (fun p => decide (p.1 = l)) =
          m.delivered.filter (fun p => decide (p.1 = l))) := by
  constructor
  · intro m
    exact ⟨rfl, rfl, rfl, rfl, rfl, rfl, rfl, rfl, rfl⟩
  · intro m l ops hops
    have h := no_delivery_without_subscribe ops (FSM.clear m) (by simp [FSM.clear]) hops
    rw [h.1]
    rfl

/-- Witness for C9: the listener subscribed to the demo machine before `clear`
receives nothing from a subsequent `next` call that would have fired for it
before the `clear`. -/
theorem clear_contract_witness :
    (runOps (FSM.clear demoMachine) [FSMOp.opNext (DVal.str "s") (some "q")]).delivered.filter
        (fun p => decide (p.1 = 7)) =
      demoMachine.delivered.filter (fun p => decide (p.1 = 7)) :=
  clear_contract.2 demoMachine 7 [FSMOp.opNext (DVal.str "s") (some "q")]
    (fun hmem => FSMOp.noConfusion (List.mem_singleton.1 hmem))

/-! ### Claims about the declarative loader -/

/-- C6 is refuted: reloading the machine holding initial data `{x: 1}` with a
valid document that carries no `initialData` succeeds, yet the old initial
data is still observable through the getter afterwards — `fromJson` does not
reset `_initialData` when the document has no such property. -/
theorem fromJson_initialData_not_reset_cex :
    (FSM.fromJson cCompile cMachine1 (some cDoc2)).2.success = true ∧
    FSM.initialDataGet (FSM.fromJson cCompile cMachine1 (some cDoc2)).1 =
      some (DVal.obj (DFields.fcons "x" (DVal.numv 1) DFields.nil)) :=
  ⟨rfl, rfl⟩

/-- C6 (amended): a successful `fromJson` load resets `name`, `alphabet` and
`initialState` (and `currentState`) from the document on every call, but
`initialData` is overwritten only when the document itself carries an
`initialData` property: loading a valid document without one leaves any
previously held initial data in place. -/
theorem fromJson_reset_amended :
    ∀ (compile : String → TransFn) (m : FSM) (d : FSMDoc) (nm : String)
      (xs : List String) (descs : List StateDesc),
      d.name = some nm → d.alphabet = some (ArrField.arrOf xs) →
      d.states = some (ArrField.arrOf descs) → d.initialData = none →
      (FSM.fromJson compile m (some d)).2.success = true →
      (FSM.fromJson compile m (some d)).1.name = nm ∧
      (FSM.fromJson compile m (some d)).1.alphabet = some xs ∧
      (FSM.fromJson compile m (some d)).1.initialState = d.initialState.getD FSM.NO_STATE ∧
      (FSM.fromJson compile m (some d)).1.curState = d.initialState.getD FSM.NO_STATE ∧
      (FSM.fromJson compile m (some d)).1.initialData = m.initialData := by
  intro compile m d nm xs descs hn ha hs hid hsucc
  rcases d with ⟨dn, dalph, dst, dis, did⟩
  simp only at hn ha hs hid
  subst hn
  subst ha
  subst hs
  subst hid
  unfold FSM.fromJson at hsucc ⊢
  dsimp only at hsucc ⊢
  by_cases hd : descs.isEmpty
  · rw [if_pos hd] at hsucc
    simp at hsucc
  · rw [if_neg hd] at hsucc ⊢
    split at hsucc
    · simp at hsucc
    · rename_i m3 heq
      simp only [heq]
      obtain ⟨hc, _, _, hnm, hini, hid2, halph⟩ := processStates_frame_eq heq
      exact ⟨hnm, halph, hini, hc, hid2⟩

/-- Witness for the amended C6 on the concrete reload scenario. -/
theorem fromJson_reset_amended_witness :
    (FSM.fromJson cCompile cMachine1 (some cDoc2)).1.name = "M1" ∧
    (FSM.fromJson cCompile cMachine1 (some cDoc2)).1.alphabet = some ["a"] ∧
    (FSM.fromJson cCompile cMachine1 (some cDoc2)).1.initialState =
      cDoc2.initialState.getD FSM.NO_STATE ∧
    (FSM.fromJson cCompile cMachine1 (some cDoc2)).1.curState =
      cDoc2.initialState.getD FSM.NO_STATE ∧
    (FSM.fromJson cCompile cMachine1 (some cDoc2)).1.initialData = cMachine1.initialData :=
  fromJson_reset_amended cCompile cMachine1 cDoc2 "M1" ["a"]
    [StateDesc.mk (some "S1") (some false) (some "b")] rfl rfl rfl rfl rfl

/-- C7 is refuted: a failure at the state-descriptor step — not at the
`initialData` step, this document carries no `initialData` at all — already
leaves the registrations made for earlier descriptors in place: loading this
document into a fresh machine fails with `INVALID_DATA` at the second
descriptor, yet one state and one transition remain registered. -/
theorem fromJson_partial_mutation_cex :
    (FSM.fromJson cCompile FSM.empty (some cDoc3)).2.success = false ∧
    (FSM.fromJson cCompile FSM.empty (some cDoc3)).2.action = FSM.INVALID_DATA ∧
    (FSM.fromJson cCompile FSM.empty (some cDoc3)).2.node =
      some (ErrNode.desc (StateDesc.mk (some "S2") none none)) ∧
    cDoc3.initialData = none ∧
    (FSM.fromJson cCompile FSM.empty (some cDoc3)).1.numStates = 1 ∧
    (FSM.fromJson cCompile FSM.empty (some cDoc3)).1.numTransitions = 1 :=
  ⟨rfl, rfl, rfl, rfl, rfl, rfl⟩

/-- C7 (amended): `fromJson` failures at the no-data, missing-properties and
alphabet-shape steps occur before any mutation of the machine; a failure at
the states-shape or empty-state-list step leaves exactly the alphabet
overwritten; and a failure during state-descriptor processing — not only a
failure at the `initialData` step — leaves the name, initial state, current
state, alphabet and all state/transition registrations made earlier in the
same call in place. -/
theorem fromJson_failure_frames :
    (∀ (compile : String → TransFn) (m : FSM),
        FSM.fromJson compile m none = (m, DTAction.mk false none FSM.NO_DATA)) ∧
    (∀ (compile : String → TransFn) (m : FSM) (d : FSMDoc),
        (d.name = none ∨ d.alphabet = none ∨ d.states = none) →
        FSM.fromJson compile m (some d) =
          (m, DTAction.mk false none FSM.MISSING_PROPS)) ∧
    (∀ (compile : String → TransFn) (m : FSM) (d : FSMDoc) (nm : String) (v : DVal)
        (stf : ArrField StateDesc),
        d.name = some nm → d.alphabet = some (ArrField.notArray v) →
        d.states = some stf →
        FSM.fromJson compile m (some d) =
          (m, DTAction.mk false none FSM.INVALID_DATA)) ∧
    (∀ (compile : String → TransFn) (m : FSM) (d : FSMDoc) (nm : String)
        (xs : List String) (v : DVal),
        d.name = some nm → d.alphabet = some (ArrField.arrOf xs) →
        d.states = some (ArrField.notArray v) →
        (FSM.fromJson compile m (some d)).2 = DTAction.mk false none FSM.INVALID_DATA ∧
        (FSM.fromJson compile m (some d)).1.alphabet = some xs ∧
        (FSM.fromJson compile m (some d)).1.states = m.states ∧
        (FSM.fromJson compile m (some d)).1.transitions = m.transitions ∧
        (FSM.fromJson compile m (some d)).1.name = m.name ∧
        (FSM.fromJson compile m (some d)).1.curState = m.curState ∧
        (FSM.fromJson compile m (some d)).1.initialState = m.initialState ∧
        (FSM.fromJson compile m (some d)).1.initialData = m.initialData) ∧
    (∀ (compile : String → TransFn) (m : FSM) (d : FSMDoc) (nm : String)
        (xs : List String),
        d.name = some nm → d.alphabet = some (ArrField.arrOf xs) →
        d.states = some (ArrField.arrOf []) →
        (FSM.fromJson compile m (some d)).2 = DTAction.mk false none FSM.NO_STATE ∧
        (FSM.fromJson compile m (some d)).1.alphabet = some xs ∧
        (FSM.fromJson compile m (some d)).1.states = m.states ∧
        (FSM.fromJson compile m (some d)).1.transitions = m.transitions ∧
        (FSM.fromJson compile m (some d)).1.name = m.name ∧
        (FSM.fromJson compile m (some d)).1.curState = m.curState ∧
        (FSM.fromJson compile m (some d)).1.initialState = m.initialState ∧
        (FSM.fromJson compile m (some d)).1.initialData = m.initialData) ∧
    (∀ (compile : String → TransFn) (m : FSM) (d : FSMDoc) (nm : String)
        (xs : List String) (descs : List StateDesc) (m3 : FSM) (bad : StateDesc),
        d.name = some nm → d.alphabet = some (ArrField.arrOf xs) →
        d.states = some (ArrField.arrOf descs) → descs ≠ [] →
        processStates compile { m with alphabet := some xs, name := nm, initialState := d.initialState.getD FSM.NO_STATE, curState := d.initialState.getD FSM.NO_STATE } descs = (m3, some bad) →
        FSM.fromJson compile m (some d) =
          (m3, DTAction.mk false (some (ErrNode.desc bad)) FSM.INVALID_DATA)) ∧
    (∀ (compile : String → TransFn) (m : FSM) (d : FSMDoc) (nm : String)
        (xs : List String) (descs : List StateDesc) (m3 : FSM) (v : DVal),
        d.name = some nm → d.alphabet = some (ArrField.arrOf xs) →
        d.states = some (ArrField.arrOf descs) → descs ≠ [] →
        processStates compile { m with alphabet := some xs, name := nm, initialState := d.initialState.getD FSM.NO_STATE, curState := d.initialState.getD FSM.NO_STATE } descs = (m3, none) →
        d.initialData = some v → isPlainObj v = false →
        FSM.fromJson compile m (some d) =
          (m3, DTAction.mk false (some (ErrNode.val v)) FSM.INVALID_DATA)) := by
  refine ⟨fun _ _ => rfl, ?_, ?_, ?_, ?_, ?_, ?_⟩
  · intro compile m d h
    rcases d with ⟨dn, dalph, dst, dis, did⟩
    simp only at h
    unfold FSM.fromJson
    rcases h with h | h | h <;> subst h
    · cases dalph <;> cases dst <;> rfl
    · cases dn <;> cases dst <;> rfl
    · cases dn <;> cases dalph <;> rfl
  · intro compile m d nm v stf hn ha hs
    rcases d with ⟨dn, dalph, dst, dis, did⟩
    simp only at hn ha hs
    subst hn; subst ha; subst hs
    rfl
  · intro compile m d nm xs v hn ha hs
    rcases d with ⟨dn, dalph, dst, dis, did⟩
    simp only at hn ha hs
    subst hn; subst ha; subst hs
    exact ⟨rfl, rfl, rfl, rfl, rfl, rfl, rfl, rfl⟩
  · intro compile m d nm xs hn ha hs
    rcases d with ⟨dn, dalph, dst, dis, did⟩
    simp only at hn ha hs
    subst hn; subst ha; subst hs
    exact ⟨rfl, rfl, rfl, rfl, rfl, rfl, rfl, rfl⟩
  · intro compile m d nm xs descs m3 bad hn ha hs hne hps
    rcases d with ⟨dn, dalph, dst, dis, did⟩
    simp only at hn ha hs hps
    subst hn; subst ha; subst hs
    have hie : descs.isEmpty = false := by
      cases descs with
      | nil => exact absurd rfl hne
      | cons a l => rfl
    unfold FSM.fromJson
    dsimp only
    rw [if_neg (by simp [hie])]
    simp only [hps]
  · intro compile m d nm xs descs m3 v hn ha hs hne hps hid hv
    rcases d with ⟨dn, dalph, dst, dis, did⟩
    simp only at hn ha hs hps hid
    subst hn; subst ha; subst hs; subst hid
    have hie : descs.isEmpty = false := by
      cases descs with
      | nil => exact absurd rfl hne
      | cons a l => rfl
    unfold FSM.fromJson
    dsimp only
    rw [if_neg (by simp [hie])]
    simp only [hps]
    rw [if_neg (by simp [hv])]

/-- Witness for the amended C7 at a concrete document missing its required
properties: the load fails with `MISSING_PROPS` and the machine is returned
unchanged. -/
theorem fromJson_failure_frames_witness :
    FSM.fromJson cCompile FSM.empty (some cDocMissing) =
      (FSM.empty, DTAction.mk false none FSM.MISSING_PROPS) :=
  fromJson_failure_frames.2.1 cCompile FSM.empty cDocMissing (Or.inl rfl)

/-! ### Heap lemmas: freshness of allocation and framing of reads -/

theorem lookupNat_append_single {α : Type} (objs : List (Nat × α)) (k : Nat) (x : α)
    {a : Nat} (hne : a ≠ k) : lookupNat (objs ++ [(k, x)]) a = lookupNat objs a := by
  induction objs with
  | nil =>
    simp only [List.nil_append, lookupNat]
    rw [if_neg (fun hh => hne hh.symm)]
  | cons e rest ih =>
    obtain ⟨k1, v1⟩ := e
    by_cases hk : k1 = a
    · simp [lookupNat, hk]
    · simp only [List.cons_append, lookupNat, if_neg hk]
      exact ih

mutual

theorem halloc_extends : ∀ (h : JHeap) (v : DVal),
    h.nextA ≤ (halloc h v).1.nextA ∧
    (∀ a, a < h.nextA → lookupNat (halloc h v).1.objs a = lookupNat h.objs a) ∧
    (∀ a2, (halloc h v).2 = HVal.href a2 → h.nextA ≤ a2)
  | h, DVal.undef => ⟨Nat.le_refl _, fun _ _ => rfl, fun _ hh => nomatch hh⟩
  | h, DVal.nullv => ⟨Nat.le_refl _, fun _ _ => rfl, fun _ hh => nomatch hh⟩
  | h, DVal.boolv b => ⟨Nat.le_refl _, fun _ _ => rfl, fun _ hh => nomatch hh⟩
  | h, DVal.numv n => ⟨Nat.le_refl _, fun _ _ => rfl, fun _ hh => nomatch hh⟩
  | h, DVal.str s => ⟨Nat.le_refl _, fun _ _ => rfl, fun _ hh => nomatch hh⟩
  | h, DVal.arr xs => by
    have hf := hallocList_extends h 0 xs
    simp only [halloc]
    refine ⟨le_trans hf.1 (Nat.le_succ _), ?_, ?_⟩
    · intro a ha
      have hne : a ≠ (hallocList h 0 xs).1.nextA :=
        Nat.ne_of_lt (lt_of_lt_of_le ha hf.1)
      rw [lookupNat_append_single _ _ _ hne]
      exact hf.2 a ha
    · intro a2 heq
      cases heq
      exact hf.1
  | h, DVal.obj fs => by
    have hf := hallocFields_extends h fs
    simp only [halloc]
    refine ⟨le_trans hf.1 (Nat.le_succ _), ?_, ?_⟩
    · intro a ha
      have hne : a ≠ (hallocFields h fs).1.nextA :=
        Nat.ne_of_lt (lt_of_lt_of_le ha hf.1)
      rw [lookupNat_append_single _ _ _ hne]
      exact hf.2 a ha
    · intro a2 heq
      cases heq
      exact hf.1

theorem hallocList_extends : ∀ (h : JHeap) (i : Nat) (xs : DList),
    h.nextA ≤ (hallocList h i xs).1.nextA ∧
    (∀ a, a < h.nextA → lookupNat (hallocList h i xs).1.objs a = lookupNat h.objs a)
  | h, i, DList.nil => ⟨Nat.le_refl _, fun _ _ => rfl⟩
  | h, i, DList.cons v rest => by
    have h1 := halloc_extends h v
    have h2 := hallocList_extends (halloc h v).1 (i + 1) rest
    simp only [hallocList]
    refine ⟨le_trans h1.1 h2.1, ?_⟩
    intro a ha
    rw [h2.2 a (lt_of_lt_of_le ha h1.1), h1.2.1 a ha]

theorem hallocFields_extends : ∀ (h : JHeap) (fs : DFields),
    h.nextA ≤ (hallocFields h fs).1.nextA ∧
    (∀ a, a < h.nextA → lookupNat (hallocFields h fs).1.objs a = lookupNat h.objs a)
  | h, DFields.nil => ⟨Nat.le_refl _, fun _ _ => rfl⟩
  | h, DFields.fcons f v rest => by
    have h1 := halloc_extends h v
    have h2 := hallocFields_extends (halloc h v).1 rest
    simp only [hallocFields]
    refine ⟨le_trans h1.1 h2.1, ?_⟩
    intro a ha
    rw [h2.2 a (lt_of_lt_of_le ha h1.1), h1.2.1 a ha]

end

theorem setField_lookup_ne (h : JHeap) (a : Nat) (f : String) (w : HVal)
    {b : Nat} (hne : b ≠ a) :
    lookupNat (setField h a f w).objs b = lookupNat h.objs b := by
  show lookupNat (h.objs.map
      (fun e => if e.1 = a then (e.1, setFieldInList e.2 f w) else e)) b =
    lookupNat h.objs b
  induction h.objs with
  | nil => rfl
  | cons e rest ih =>
    obtain ⟨k, fl⟩ := e
    dsimp only [List.map_cons]
    by_cases hka : k = a
    · subst hka
      rw [if_pos rfl]
      have hkb : ¬ (k = b) := fun hh => hne hh.symm
      simp only [lookupNat, if_neg hkb]
      exact ih
    · rw [if_neg hka]
      by_cases hkb : k = b
      · subst hkb
        simp [lookupNat]
      · simp only [lookupNat, if_neg hkb]
        exact ih

theorem hread_hreadFields_frame {h h2 : JHeap} {n : Nat}
    (hagree : ∀ a, a < n → lookupNat h2.objs a = lookupNat h.objs a)
    (hbound : ∀ a flds, a < n → lookupNat h.objs a = some flds →
      fieldsBound flds n = true) :
    ∀ fuel : Nat,
      (∀ v, hvalBound v n = true → hread h2 fuel v = hread h fuel v) ∧
      (∀ flds, fieldsBound flds n = true →
        hreadFields h2 fuel flds = hreadFields h fuel flds) := by
  intro fuel
  induction fuel with
  | zero =>
    have hv : ∀ v, hvalBound v n = true → hread h2 0 v = hread h 0 v := by
      intro v _
      cases v <;> simp [hread]
    refine ⟨hv, ?_⟩
    intro flds hb
    induction flds with
    | nil => simp [hreadFields]
    | cons p rest ihl =>
      obtain ⟨f, v⟩ := p
      have hb1 : hvalBound v n = true := by
        simp only [fieldsBound, List.all_cons, Bool.and_eq_true] at hb
        exact hb.1
      have hb2 : fieldsBound rest n = true := by
        simp only [fieldsBound, List.all_cons, Bool.and_eq_true] at hb
        exact hb.2
      simp only [hreadFields]
      rw [hv v hb1, ihl hb2]
  | succ fuel ih =>
    have hv : ∀ v, hvalBound v n = true →
        hread h2 (fuel + 1) v = hread h (fuel + 1) v := by
      intro v hbv
      cases v with
      | href a =>
        have ha : a < n := by simpa [hvalBound] using hbv
        simp only [hread]
        rw [hagree a ha]
        cases hl : lookupNat h.objs a with
        | none => rfl
        | some flds =>
          dsimp only
          rw [ih.2 flds (hbound a flds ha hl)]
      | hnull => simp [hread]
      | hbool b => simp [hread]
      | hnum k => simp [hread]
      | hstr s => simp [hread]
    refine ⟨hv, ?_⟩
    intro flds hb
    induction flds with
    | nil => simp [hreadFields]
    | cons p rest ihl =>
      obtain ⟨f, v⟩ := p
      have hb1 : hvalBound v n = true := by
        simp only [fieldsBound, List.all_cons, Bool.and_eq_true] at hb
        exact hb.1
      have hb2 : fieldsBound rest n = true := by
        simp only [fieldsBound, List.all_cons, Bool.and_eq_true] at hb
        exact hb.2
      simp only [hreadFields]
      rw [hv v hb1, ihl hb2]

theorem lookupNat_mem {α : Type} {xs : List (Nat × α)} {k : Nat} {v : α}
    (h : lookupNat xs k = some v) : (k, v) ∈ xs := by
  induction xs with
  | nil => simp [lookupNat] at h
  | cons e rest ih =>
    obtain ⟨k1, v1⟩ := e
    by_cases hk : k1 = k
    · subst hk
      have h2 : v1 = v := by simpa [lookupNat] using h
      subst h2
      exact List.mem_cons_self _ _
    · simp only [lookupNat, if_neg hk] at h
      exact List.mem_cons_of_mem _ (ih h)

/-- C10: after a successful load of a valid document, reading back `alphabet`,
`initialState` and `initialData` reproduces the document's source values by
structural equality (for an `initialData` object free of `undefined` members,
as every actual JSON document value is); and at the reference level the
getter's stringify-then-parse copy is allocated entirely at fresh addresses,
so mutating any field through any fresh reference — in particular through the
returned copy, whose root reference is fresh — leaves every subsequent read of
the machine-held value unchanged. -/
theorem fromJson_roundtrip :
    (∀ (compile : String → TransFn) (m : FSM) (d : FSMDoc) (nm is0 : String)
        (xs : List String) (v : DVal),
        d.name = some nm → d.alphabet = some (ArrField.arrOf xs) →
        d.initialState = some is0 → d.initialData = some v →
        isPlainObj v = true → noUndef v = true →
        (FSM.fromJson compile m (some d)).2.success = true →
        FSM.alphabetGet (FSM.fromJson compile m (some d)).1 = Except.ok xs ∧
        (FSM.fromJson compile m (some d)).1.initialState = is0 ∧
        FSM.initialDataGet (FSM.fromJson compile m (some d)).1 = some v) ∧
    (∀ (h : JHeap) (v : HVal) (fuel : Nat) (h2 : JHeap) (r : HVal),
        heapBound h = true → hvalBound v h.nextA = true →
        hclone h fuel v = some (h2, r) →
        (∀ a2, r = HVal.href a2 → h.nextA ≤ a2) ∧
        (∀ (a : Nat) (f : String) (w : HVal) (fuel2 : Nat), h.nextA ≤ a →
            hread (setField h2 a f w) fuel2 v = hread h fuel2 v)) := by
  constructor
  · intro compile m d nm is0 xs v hn ha hi hd hobj hnu hsucc
    rcases d with ⟨dn, dalph, dst, dis, did⟩
    simp only at hn ha hi hd
    subst hn; subst ha; subst hi; subst hd
    cases dst with
    | none => unfold FSM.fromJson at hsucc; simp at hsucc
    | some stf =>
      cases stf with
      | notArray v2 => unfold FSM.fromJson at hsucc; simp at hsucc
      | arrOf descs =>
        unfold FSM.fromJson at hsucc
        dsimp only at hsucc
        by_cases hde : descs.isEmpty
        · rw [if_pos hde] at hsucc
          simp at hsucc
        · rw [if_neg hde] at hsucc
          split at hsucc
          · simp at hsucc
          · rename_i m3 heq
            obtain ⟨hc, _, _, hnm, hini, hid2, halph⟩ := processStates_frame_eq heq
            have hres : FSM.fromJson compile m (some (FSMDoc.mk (some nm)
                (some (ArrField.arrOf xs)) (some (ArrField.arrOf descs)) (some is0)
                (some v))) =
                ({ m3 with initialData := some (jsonClone v) },
                 DTAction.mk true none FSM.VALID) := by
              unfold FSM.fromJson
              dsimp only
              rw [if_neg hde]
              simp only [heq]
              rw [if_pos hobj]
            rw [hres]
            dsimp only
            refine ⟨?_, ?_, ?_⟩
            · have h5 : ({ m3 with initialData := some (jsonClone v) } : FSM).alphabet =
                  some xs := halph
              unfold FSM.alphabetGet
              rw [h5]
            · exact hini
            · unfold FSM.initialDataGet
              dsimp only
              rw [jsonClone_noUndef v hnu, jsonClone_noUndef v hnu]
  · intro h v fuel h2 r hb hv hcl
    unfold hclone at hcl
    cases ht : hread h fuel v with
    | none =>
      rw [ht] at hcl
      exact absurd hcl (by simp)
    | some t =>
      rw [ht] at hcl
      simp only [Option.map] at hcl
      rw [Option.some.injEq] at hcl
      obtain ⟨hext1, hext2, hext3⟩ := halloc_extends h t
      rw [hcl] at hext1 hext2 hext3
      constructor
      · intro a2 hr
        exact hext3 a2 hr
      · intro a f w fuel2 haa
        have hagree : ∀ b, b < h.nextA →
            lookupNat (setField h2 a f w).objs b = lookupNat h.objs b := by
          intro b hbn
          rw [setField_lookup_ne h2 a f w (Nat.ne_of_lt (lt_of_lt_of_le hbn haa))]
          exact hext2 b hbn
        have hbound2 : ∀ b flds, b < h.nextA → lookupNat h.objs b = some flds →
            fieldsBound flds h.nextA = true := by
          intro b flds hbn hlk
          have hmem : (b, flds) ∈ h.objs := lookupNat_mem hlk
          have hall := (List.all_eq_true.1 hb) (b, flds) hmem
          simp only [Bool.and_eq_true] at hall
          exact hall.2
        exact (hread_hreadFields_frame hagree hbound2 fuel2).1 v hv

/-- Witness for C10: the concrete load of `cDoc1` round-trips its alphabet,
initial state and initial data, and mutating the fresh copy of a one-object
heap value leaves a re-read of the machine-held reference unchanged. -/
theorem fromJson_roundtrip_witness :
    (FSM.alphabetGet (FSM.fromJson cCompile FSM.empty (some cDoc1)).1 = Except.ok ["a"] ∧
     (FSM.fromJson cCompile FSM.empty (some cDoc1)).1.initialState = "S1" ∧
     FSM.initialDataGet (FSM.fromJson cCompile FSM.empty (some cDoc1)).1 =
       some (DVal.obj (DFields.fcons "x" (DVal.numv 1) DFields.nil))) ∧
    (∀ (a : Nat) (f : String) (w : HVal) (fuel2 : Nat), 1 ≤ a →
        hread (setField (JHeap.mk [(0, [("x", HVal.hnum 1)]), (1, [("x", HVal.hnum 1)])] 2)
          a f w) fuel2 (HVal.href 0) =
        hread (JHeap.mk [(0, [("x", HVal.hnum 1)])] 1) fuel2 (HVal.href 0)) := by
  constructor
  · exact fromJson_roundtrip.1 cCompile FSM.empty cDoc1 "M1" "S1" ["a"]
      (DVal.obj (DFields.fcons "x" (DVal.numv 1) DFields.nil)) rfl rfl rfl rfl rfl rfl rfl
  · exact (fromJson_roundtrip.2 (JHeap.mk [(0, [("x", HVal.hnum 1)])] 1) (HVal.href 0) 1
      (JHeap.mk [(0, [("x", HVal.hnum 1)]), (1, [("x", HVal.hnum 1)])] 2) (HVal.href 1)
      rfl rfl
      (by simp [hclone, hread, hreadFields, halloc, hallocFields, lookupNat])).2
